import Mathlib

/-!
Shallow embedding of `src/algorithms_step/model.py` (IBM/Causal-Q-Network):
three treatment-aware Q-network variants sharing a two-layer state encoder.
Tensors are modelled per sample as lists of rationals; `nn.Linear` is an
explicit weight matrix and bias, ReLU is pointwise `max · 0`, and the
PyTorch list/tensor operations (`[-step:]`, `torch.cat`, `F.pad`,
`scatter`, `topk`, `torch.where`) are given their library semantics on
lists.  All batch operations in the source act row-wise, so a batch is a
map of the per-sample function over its rows.
-/

/-- A per-sample feature vector (one tensor row). -/
abbrev Vec := List ℚ

/-- Dot product of two rows, zipping componentwise. -/
def dot (a b : Vec) : ℚ := (List.zipWith (· * ·) a b).sum

/-- An `nn.Linear` layer: a weight matrix (list of rows) and a bias vector. -/
structure Linear where
  weight : List Vec
  bias : Vec
deriving DecidableEq

/-- Apply a linear layer: `W·x + b`, one output entry per weight row. -/
def Linear.app (l : Linear) (v : Vec) : Vec :=
  List.zipWith (fun row b => dot row v + b) l.weight l.bias

/-- Pointwise ReLU, `max x 0`. -/
def relu (v : Vec) : Vec := v.map (fun x => max x 0)

/-- The well-formedness of a linear layer's output shape: `n` rows, `n` biases
(`nn.Linear(_, n)`). -/
def Linear.outWF (l : Linear) (n : ℕ) : Prop :=
  l.weight.length = n ∧ l.bias.length = n

/-- The shared state encoder (model.py lines 10-13):
`Linear(state_size, fc1) → ReLU → Linear(fc1, fc2) → ReLU`. -/
structure Encoder where
  l1 : Linear
  l2 : Linear
deriving DecidableEq

/-- Apply the encoder to one raw state vector. -/
def Encoder.app (e : Encoder) (v : Vec) : Vec :=
  relu (e.l2.app (relu (e.l1.app v)))

/-- A two-layer head `Linear → ReLU → Linear`, the shape of `logits_t`,
`fc`, `fc_t0` and `fc_t1` in the source. -/
structure Head where
  l1 : Linear
  l2 : Linear
deriving DecidableEq

/-- Apply a two-layer head. -/
def Head.app (h : Head) (v : Vec) : Vec :=
  h.l2.app (relu (h.l1.app v))

/-- Python `xs[-n:]`: the last `n` elements (the whole list when shorter). -/
def lastN (n : ℕ) (xs : List α) : List α := xs.drop (xs.length - n)

/-- `F.pad(v, pad=(w - len(v), 0))`: left-pad with zeros up to width `w`. -/
def padZeroLeft (w : ℕ) (v : Vec) : Vec :=
  List.replicate (w - v.length) 0 ++ v

/-- `torch.zeros(n).scatter(-1, [i], 1)`: a one-hot row of width `n` with a
single 1 at position `i` (all zeros when `i ≥ n`, where PyTorch would raise). -/
def oneHot (n i : ℕ) : Vec :=
  (List.range n).map (fun j => if j = i then 1 else 0)

/-- Maximum of a list of scores (0 on the empty list, never used there). -/
def listMax : List ℚ → ℚ
  | [] => 0
  | [x] => x
  | x :: y :: t => max x (listMax (y :: t))

/-- Index returned by `tensor.topk(1)[1]` on a score row: the arg-max with
ties broken toward the lowest index. -/
def argmaxIdx : List ℚ → ℕ
  | [] => 0
  | [_] => 0
  | x :: y :: t => if listMax (y :: t) ≤ x then 0 else argmaxIdx (y :: t) + 1

/-- Apply the shared encoder to every timestep of the raw state sequence
(`data['z'] = [self.encoder(s) for s in data['state']]`, model.py line 19). -/
def encodeSeq (e : Encoder) (states : List Vec) : List Vec :=
  states.map e.app

/-- Window assembler (model.py lines 44, 47-48): keep the last `step` latent
vectors, concatenate them, and left-pad with zeros to width `latent * step`. -/
def windowBlock (latent step : ℕ) (zs : List Vec) : Vec :=
  padZeroLeft (latent * step) (lastN step zs).flatten

/-- Training/evaluation mode flag (`self.training` in the source). -/
inductive Mode
  | train
  | eval
deriving DecidableEq

/-- One sample of the batch dict handed to `forward`: keys `state`,
`prev_action` and `t`, plus the `z` / `onehot_prev_action` slots the forward
pass itself writes into the dict. -/
structure Data where
  state : List Vec
  prev_action : ℕ
  t : List ℕ
  z : Option (List Vec) := none
  onehot_prev_action : Option Vec := none
deriving DecidableEq

/-- The per-sample output record `{t, y, z}` of a forward pass. -/
structure Out where
  t : Vec
  y : Vec
  z : Vec
deriving DecidableEq

/-- Failure modes of a forward call, after the spec's error taxonomy; they
stand for the runtime errors PyTorch raises at the corresponding operation. -/
inductive Err
  | shapeMismatch
  | indexOutOfBounds
  | missingField
  | invalidMode
deriving DecidableEq

/-- Rows written by `zeros(k, numT).scatter(2, labels, 1)` in training mode
(model.py lines 95-96 / 144-145): row `i` is the one-hot of label `i`, and
rows beyond the label sequence stay zero. -/
def trainRows (numT k : ℕ) (labels : List ℕ) : List Vec :=
  (List.range k).map (fun i =>
    match labels[i]? with
    | some lab => oneHot numT lab
    | none => List.replicate numT 0)

/-- Treatment encoder block (model.py lines 93-103 / 142-157): one-hot the
ground-truth labels (training) or the per-timestep arg-max predictions
(evaluation), flatten, and left-pad with zeros to width `numT * step`.
`t` is the list of per-timestep treatment logits for the last `step` steps. -/
def treatOneHotBlock (numT step : ℕ) (mode : Mode) (labels : List ℕ)
    (t : List Vec) : Vec :=
  match mode with
  | .train => padZeroLeft (numT * step) (trainRows numT t.length (lastN step labels)).flatten
  | .eval => padZeroLeft (numT * step) (t.map (fun l => oneHot numT (argmaxIdx l))).flatten

/-- `SimpleQNetwork` (model.py lines 24-63): configuration sizes and the
three parameter groups `encoder`, `logits_t`, `fc`. -/
structure SimpleQNetwork where
  state_size : ℕ
  action_size : ℕ
  fc1_units : ℕ
  fc2_units : ℕ
  step : ℕ
  num_treatment : ℕ
  encoder : Encoder
  logits_t : Head
  fc : Head
deriving DecidableEq

/-- Per-timestep treatment logits over the last `step` latents
(`t = [self.logits_t(_z) for _z in z]`, model.py line 45). -/
def SimpleQNetwork.tlogits (net : SimpleQNetwork) (d : Data) : List Vec :=
  (lastN net.step (encodeSeq net.encoder d.state)).map net.logits_t.app

/-- The value head's raw output on the window block alone
(`y = self.fc(z)`, model.py line 49). -/
def SimpleQNetwork.yfc (net : SimpleQNetwork) (d : Data) : Vec :=
  net.fc.app (windowBlock net.fc2_units net.step (encodeSeq net.encoder d.state))

/-- `SimpleQNetwork._forward` after encoding (model.py lines 42-63), per
sample: the treatment logits of the last timestep, the action values with the
`prev_action` override when the latest treatment indicator equals 1
(ground truth in training, arg-max prediction in evaluation), and the
assembled window block. -/
def SimpleQNetwork.forwardCore (net : SimpleQNetwork) (mode : Mode) (d : Data) : Out :=
  let t := net.tlogits d
  let y := net.yfc d
  let onehot := oneHot y.length d.prev_action
  { t := t.getLastD []
    y := match mode with
      | .train => if d.t.getLastD 0 = 1 then onehot else y
      | .eval => if argmaxIdx (t.getLastD []) = 1 then onehot else y
    z := windowBlock net.fc2_units net.step (encodeSeq net.encoder d.state) }

/-- `forward` as the caller observes the dict (model.py lines 18-21 and 52):
the output record together with the batch record after the call, whose `z`
and `onehot_prev_action` slots have been written. -/
def SimpleQNetwork.forwardMut (net : SimpleQNetwork) (mode : Mode) (d : Data) :
    Out × Data :=
  (net.forwardCore mode d,
   { d with
       z := some (encodeSeq net.encoder d.state)
       onehot_prev_action := some (oneHot (net.yfc d).length d.prev_action) })

/-- `SimpleQNetwork` forward with the runtime checks PyTorch performs, in
source order: the encoder's input width (line 19), the non-empty
concatenation (line 47), the scatter bound on `prev_action` against the
value-head output width (lines 51-52), and the presence of the ground-truth
treatment used at line 55 in training mode. -/
def SimpleQNetwork.forwardE (net : SimpleQNetwork) (mode : Mode) (d : Data) :
    Except Err Out :=
  if d.state.all (fun v => v.length = net.state_size) then
    if d.state = [] then .error .shapeMismatch
    else if d.prev_action < (net.yfc d).length then
      match mode with
      | .train =>
        if d.t = [] then .error .missingField
        else .ok (net.forwardCore .train d)
      | .eval => .ok (net.forwardCore .eval d)
    else .error .indexOutOfBounds
  else .error .shapeMismatch

/-- `CEQNetwork_1` (model.py lines 66-109): window block and treatment block
concatenated into a single value head `fc`. -/
structure CEQNetwork_1 where
  state_size : ℕ
  action_size : ℕ
  fc1_units : ℕ
  fc2_units : ℕ
  step : ℕ
  num_treatment : ℕ
  encoder : Encoder
  logits_t : Head
  fc : Head
deriving DecidableEq

/-- Per-timestep treatment logits of `CEQNetwork_1` (model.py line 87). -/
def CEQNetwork_1.tlogits (net : CEQNetwork_1) (d : Data) : List Vec :=
  (lastN net.step (encodeSeq net.encoder d.state)).map net.logits_t.app

/-- The padded window block of `CEQNetwork_1` (model.py lines 89-90). -/
def CEQNetwork_1.zblock (net : CEQNetwork_1) (d : Data) : Vec :=
  windowBlock net.fc2_units net.step (encodeSeq net.encoder d.state)

/-- The padded treatment one-hot block of `CEQNetwork_1`
(model.py lines 93-103). -/
def CEQNetwork_1.treatBlock (net : CEQNetwork_1) (mode : Mode) (d : Data) : Vec :=
  treatOneHotBlock net.num_treatment net.step mode d.t (net.tlogits d)

/-- `CEQNetwork_1._forward` after encoding (model.py lines 84-109), per
sample. -/
def CEQNetwork_1.forwardCore (net : CEQNetwork_1) (mode : Mode) (d : Data) : Out :=
  let t := net.tlogits d
  let zb := net.zblock d
  { t := t.getLastD []
    y := net.fc.app (zb ++ net.treatBlock mode d)
    z := zb }

/-- `CEQNetwork_1.forward` as the caller observes the dict: output plus the
batch record with its `z` slot written (model.py line 19). -/
def CEQNetwork_1.forwardMut (net : CEQNetwork_1) (mode : Mode) (d : Data) :
    Out × Data :=
  (net.forwardCore mode d, { d with z := some (encodeSeq net.encoder d.state) })

/-- `CEQNetwork_1` forward with PyTorch's runtime checks in source order:
encoder input width (line 19), non-empty concatenation (line 89), and in
training mode the presence, alignment and range of the ground-truth labels
consumed by the scatter at lines 94-96. -/
def CEQNetwork_1.forwardE (net : CEQNetwork_1) (mode : Mode) (d : Data) :
    Except Err Out :=
  if d.state.all (fun v => v.length = net.state_size) then
    if d.state = [] then .error .shapeMismatch
    else
      match mode with
      | .train =>
        if d.t = [] then .error .missingField
        else if (lastN net.step d.t).length ≤ (net.tlogits d).length then
          if (lastN net.step d.t).all (fun lab => lab < net.num_treatment) then
            .ok (net.forwardCore .train d)
          else .error .indexOutOfBounds
        else .error .shapeMismatch
      | .eval => .ok (net.forwardCore .eval d)
  else .error .shapeMismatch

/-- `CEQNetwork_2` (model.py lines 112-166): two potential-outcome heads
`fc_t0`, `fc_t1` over the joint window+treatment vector. -/
structure CEQNetwork_2 where
  state_size : ℕ
  action_size : ℕ
  fc1_units : ℕ
  fc2_units : ℕ
  step : ℕ
  num_treatment : ℕ
  encoder : Encoder
  logits_t : Head
  fc_t0 : Head
  fc_t1 : Head
deriving DecidableEq

/-- Per-timestep treatment logits of `CEQNetwork_2` (model.py line 136). -/
def CEQNetwork_2.tlogits (net : CEQNetwork_2) (d : Data) : List Vec :=
  (lastN net.step (encodeSeq net.encoder d.state)).map net.logits_t.app

/-- The padded window block of `CEQNetwork_2` (model.py lines 138-139). -/
def CEQNetwork_2.zblock (net : CEQNetwork_2) (d : Data) : Vec :=
  windowBlock net.fc2_units net.step (encodeSeq net.encoder d.state)

/-- The padded treatment one-hot block of `CEQNetwork_2`
(model.py lines 142-157). -/
def CEQNetwork_2.treatBlock (net : CEQNetwork_2) (mode : Mode) (d : Data) : Vec :=
  treatOneHotBlock net.num_treatment net.step mode d.t (net.tlogits d)

/-- `t_bernoulli` (model.py lines 148 and 153): the ground-truth latest
treatment label in training mode, the latest-timestep arg-max prediction
cast to a rational weight in evaluation mode. -/
def CEQNetwork_2.tIndicator (net : CEQNetwork_2) (mode : Mode) (d : Data) : ℚ :=
  match mode with
  | .train => (d.t.getLastD 0 : ℚ)
  | .eval => (argmaxIdx ((net.tlogits d).getLastD []) : ℚ)

/-- The joint window+treatment input fed to both heads
(`torch.cat([z, onehot_t], dim=-1)`, model.py lines 159-160). -/
def CEQNetwork_2.joint (net : CEQNetwork_2) (mode : Mode) (d : Data) : Vec :=
  net.zblock d ++ net.treatBlock mode d

/-- `CEQNetwork_2._forward` after encoding (model.py lines 133-166), per
sample: `y = t_bernoulli * y_t1 + (1 - t_bernoulli) * y_t0` entrywise. -/
def CEQNetwork_2.forwardCore (net : CEQNetwork_2) (mode : Mode) (d : Data) : Out :=
  let t := net.tlogits d
  let tb := net.tIndicator mode d
  { t := t.getLastD []
    y := List.zipWith (fun a b => tb * a + (1 - tb) * b)
      (net.fc_t1.app (net.joint mode d)) (net.fc_t0.app (net.joint mode d))
    z := net.zblock d }

/-- `CEQNetwork_2.forward` as the caller observes the dict: output plus the
batch record with its `z` slot written (model.py line 19). -/
def CEQNetwork_2.forwardMut (net : CEQNetwork_2) (mode : Mode) (d : Data) :
    Out × Data :=
  (net.forwardCore mode d, { d with z := some (encodeSeq net.encoder d.state) })

/-- `CEQNetwork_2` forward with PyTorch's runtime checks in source order,
mirroring `CEQNetwork_1.forwardE` (the training-mode scatter at lines
143-145 and the label read at line 148). -/
def CEQNetwork_2.forwardE (net : CEQNetwork_2) (mode : Mode) (d : Data) :
    Except Err Out :=
  if d.state.all (fun v => v.length = net.state_size) then
    if d.state = [] then .error .shapeMismatch
    else
      match mode with
      | .train =>
        if d.t = [] then .error .missingField
        else if (lastN net.step d.t).length ≤ (net.tlogits d).length then
          if (lastN net.step d.t).all (fun lab => lab < net.num_treatment) then
            .ok (net.forwardCore .train d)
          else .error .indexOutOfBounds
        else .error .shapeMismatch
      | .eval => .ok (net.forwardCore .eval d)
  else .error .shapeMismatch

/-- The `k`-th width-`numT` sub-range of a flattened treatment block. -/
def slot (numT k : ℕ) (v : Vec) : Vec :=
  (v.drop (numT * k)).take numT

/-- A concrete 1-dimensional encoder used to evaluate the development on
closed inputs. -/
def encUnit : Encoder := ⟨⟨[[1]], [0]⟩, ⟨[[1]], [0]⟩⟩

/-- A concrete treatment head with two output classes. -/
def headT : Head := ⟨⟨[[1]], [0]⟩, ⟨[[1], [0]], [0, 0]⟩⟩

/-- A concrete value head with two output actions. -/
def headV : Head := ⟨⟨[[1, 1]], [0]⟩, ⟨[[1], [2]], [0, 0]⟩⟩

/-- A concrete `SimpleQNetwork` instance
(`state_size=1, action_size=2, step=2, num_treatment=2`). -/
def netA : SimpleQNetwork := ⟨1, 2, 1, 1, 2, 2, encUnit, headT, headV⟩

/-- A concrete `CEQNetwork_1` instance with the same configuration. -/
def netB : CEQNetwork_1 := ⟨1, 2, 1, 1, 2, 2, encUnit, headT, headV⟩

/-- A concrete `CEQNetwork_2` instance with the same configuration. -/
def netC : CEQNetwork_2 := ⟨1, 2, 1, 1, 2, 2, encUnit, headT, headV, headV⟩

/-- A concrete one-timestep batch sample with latest treatment label 1. -/
def dataEx : Data := { state := [[1]], prev_action := 0, t := [1] }

theorem relu_length (v : Vec) : (relu v).length = v.length := by
  simp [relu]

theorem linApp_length (l : Linear) (v : Vec) {n : ℕ} (h : l.outWF n) :
    (l.app v).length = n := by
  rcases h with ⟨hw, hb⟩
  simp [Linear.app, hw, hb]

theorem headApp_length (h : Head) (v : Vec) {n : ℕ} (hwf : h.l2.outWF n) :
    (h.app v).length = n := by
  simp [Head.app, linApp_length h.l2 _ hwf]

theorem encApp_length (e : Encoder) (v : Vec) {n : ℕ} (hwf : e.l2.outWF n) :
    (e.app v).length = n := by
  simp [Encoder.app, relu_length, linApp_length e.l2 _ hwf]

theorem lastN_length (n : ℕ) (xs : List α) :
    (lastN n xs).length = min n xs.length := by
  simp [lastN]
  omega

theorem lastN_eq_self {n : ℕ} {xs : List α} (h : xs.length ≤ n) :
    lastN n xs = xs := by
  simp [lastN, Nat.sub_eq_zero_of_le h]

theorem mem_of_mem_lastN {n : ℕ} {xs : List α} {x : α} (h : x ∈ lastN n xs) :
    x ∈ xs :=
  List.mem_of_mem_drop h

theorem flatten_length_of_forall {zs : List Vec} {m : ℕ}
    (h : ∀ v ∈ zs, v.length = m) : zs.flatten.length = m * zs.length := by
  induction zs with
  | nil => simp
  | cons v vs ih =>
    simp only [List.flatten_cons, List.length_append, List.length_cons]
    rw [h v (by simp), ih (fun w hw => h w (by simp [hw]))]
    ring

theorem oneHot_length (n i : ℕ) : (oneHot n i).length = n := by
  simp [oneHot]

theorem oneHot_sum {n i : ℕ} (h : i < n) : (oneHot n i).sum = 1 := by
  induction n with
  | zero => omega
  | succ m ih =>
    rw [oneHot, List.range_succ]
    rcases Nat.lt_or_ge i m with hlt | hge
    · have : ((List.range m).map fun j => if j = i then (1 : ℚ) else 0).sum = 1 := ih hlt
      simp only [List.map_append, List.sum_append, List.map_cons, List.map_nil]
      rw [this]
      have : m ≠ i := by omega
      simp [this]
    · have : i = m := by omega
      subst this
      have hz : ∀ x ∈ (List.range i).map fun j => if j = i then (1 : ℚ) else 0, x = 0 := by
        intro x hx
        rcases List.mem_map.mp hx with ⟨j, hj, rfl⟩
        have : j ≠ i := by
          have := List.mem_range.mp hj
          omega
        simp [this]
      simp only [List.map_append, List.sum_append, List.map_cons, List.map_nil]
      rw [List.sum_eq_zero hz]
      simp

theorem oneHot_getD {n i j : ℕ} (h : j < n) :
    (oneHot n i).getD j 0 = if j = i then 1 else 0 := by
  rw [oneHot, List.getD_eq_getElem?_getD, List.getElem?_map, List.getElem?_range h]
  rfl

theorem listMax_cons {x : ℚ} {xs : List ℚ} (h : xs ≠ []) :
    listMax (x :: xs) = max x (listMax xs) := by
  cases xs with
  | nil => exact absurd rfl h
  | cons y t => rfl

theorem getD_le_listMax {xs : List ℚ} {j : ℕ} (h : j < xs.length) :
    xs.getD j 0 ≤ listMax xs := by
  induction xs generalizing j with
  | nil => simp at h
  | cons x t ih =>
    cases t with
    | nil =>
      have : j = 0 := by simpa using Nat.lt_one_iff.mp (by simpa using h)
      subst this
      simp [listMax]
    | cons y s =>
      rw [listMax_cons (by simp)]
      cases j with
      | zero => simp
      | succ k =>
        have hk : k < (y :: s).length := by simpa using h
        calc (x :: y :: s).getD (k + 1) 0 = (y :: s).getD k 0 := rfl
          _ ≤ listMax (y :: s) := ih hk
          _ ≤ max x (listMax (y :: s)) := le_max_right _ _

theorem argmaxIdx_lt_length {xs : List ℚ} (h : xs ≠ []) :
    argmaxIdx xs < xs.length := by
  induction xs with
  | nil => exact absurd rfl h
  | cons x t ih =>
    cases t with
    | nil => simp [argmaxIdx]
    | cons y s =>
      rw [argmaxIdx]
      split
      · simp
      · have := ih (by simp)
        simpa using Nat.succ_lt_succ this

theorem getD_argmaxIdx_eq_listMax {xs : List ℚ} (h : xs ≠ []) :
    xs.getD (argmaxIdx xs) 0 = listMax xs := by
  induction xs with
  | nil => exact absurd rfl h
  | cons x t ih =>
    cases t with
    | nil => simp [argmaxIdx, listMax]
    | cons y s =>
      have hcons : listMax (x :: y :: s) = max x (listMax (y :: s)) := rfl
      rw [argmaxIdx, hcons]
      split
      · rename_i hle
        show x = max x (listMax (y :: s))
        exact (max_eq_left hle).symm
      · rename_i hlt
        push_neg at hlt
        show (y :: s).getD (argmaxIdx (y :: s)) 0 = max x (listMax (y :: s))
        rw [ih (by simp)]
        exact (max_eq_right (le_of_lt hlt)).symm

theorem getD_le_getD_argmaxIdx {xs : List ℚ} {j : ℕ} (h : j < xs.length) :
    xs.getD j 0 ≤ xs.getD (argmaxIdx xs) 0 := by
  have hne : xs ≠ [] := by
    intro hx
    subst hx
    simp at h
  rw [getD_argmaxIdx_eq_listMax hne]
  exact getD_le_listMax h

theorem getD_lt_of_lt_argmaxIdx {xs : List ℚ} {j : ℕ} (h : j < argmaxIdx xs) :
    xs.getD j 0 < xs.getD (argmaxIdx xs) 0 := by
  induction xs generalizing j with
  | nil => simp [argmaxIdx] at h
  | cons x t ih =>
    cases t with
    | nil => simp [argmaxIdx] at h
    | cons y s =>
      rw [argmaxIdx] at h ⊢
      split at h
      · omega
      · rename_i hlt
        push_neg at hlt
        rw [if_neg (not_le.mpr hlt)]
        cases j with
        | zero =>
          have h1 : (x :: y :: s).getD 0 0 = x := rfl
          have h2 : (x :: y :: s).getD (argmaxIdx (y :: s) + 1) 0 =
              (y :: s).getD (argmaxIdx (y :: s)) 0 := rfl
          rw [h1, h2, getD_argmaxIdx_eq_listMax (by simp)]
          exact hlt
        | succ k =>
          have hk : k < argmaxIdx (y :: s) := by omega
          have h2 : (x :: y :: s).getD (k + 1) 0 = (y :: s).getD k 0 := rfl
          have h3 : (x :: y :: s).getD (argmaxIdx (y :: s) + 1) 0 =
              (y :: s).getD (argmaxIdx (y :: s)) 0 := rfl
          rw [h2, h3]
          exact ih hk

theorem zipWith_comb_left {a b : List ℚ} (h : a.length = b.length) :
    List.zipWith (fun x y => (1 : ℚ) * x + (1 - 1) * y) a b = a := by
  induction a generalizing b with
  | nil => simp
  | cons x t ih =>
    cases b with
    | nil => simp at h
    | cons y s =>
      simp only [List.zipWith_cons_cons]
      rw [ih (by simpa using h)]
      norm_num

theorem zipWith_comb_right {a b : List ℚ} (h : a.length = b.length) :
    List.zipWith (fun x y => (0 : ℚ) * x + (1 - 0) * y) a b = b := by
  induction a generalizing b with
  | nil =>
    cases b with
    | nil => simp
    | cons y s => simp at h
  | cons x t ih =>
    cases b with
    | nil => simp at h
    | cons y s =>
      simp only [List.zipWith_cons_cons]
      rw [ih (by simpa using h)]
      norm_num

theorem flatten_slot {rows : List Vec} {m i : ℕ}
    (hlen : ∀ r ∈ rows, r.length = m) (hi : i < rows.length) :
    (rows.flatten.drop (m * i)).take m = rows.getD i [] := by
  induction rows generalizing i with
  | nil => simp at hi
  | cons r rs ih =>
    cases i with
    | zero =>
      have hr : r.length = m := hlen r (by simp)
      simp only [Nat.mul_zero, List.drop_zero, List.flatten_cons,
        List.getD_cons_zero]
      rw [List.take_append_of_le_length (by omega), ← hr, List.take_length]
    | succ k =>
      have hr : r.length = m := hlen r (by simp)
      have hmul : m * (k + 1) = r.length + m * k := by rw [hr]; ring
      simp only [List.flatten_cons, List.getD_cons_succ]
      rw [hmul, List.drop_append]
      exact ih (fun w hw => hlen w (by simp [hw])) (by simpa using hi)

theorem slot_padZeroLeft_pad {rows : List Vec} {numT step j : ℕ}
    (hlen : ∀ r ∈ rows, r.length = numT)
    (hj : j < step - rows.length) :
    slot numT j (padZeroLeft (numT * step) rows.flatten) =
      List.replicate numT 0 := by
  have hfl : rows.flatten.length = numT * rows.length :=
    flatten_length_of_forall hlen
  have hpad : numT * step - rows.flatten.length = numT * (step - rows.length) := by
    rw [hfl, Nat.mul_sub]
  have hb : numT * (j + 1) ≤ numT * (step - rows.length) :=
    Nat.mul_le_mul_left numT (by omega)
  have hb' : numT ≤ numT * (step - rows.length) - numT * j := by
    rw [Nat.mul_add, Nat.mul_one] at hb
    omega
  rw [slot, padZeroLeft, hpad]
  rw [List.drop_append_of_le_length
    (by rw [List.length_replicate]; exact Nat.mul_le_mul_left numT (by omega))]
  rw [List.drop_replicate]
  rw [List.take_append_of_le_length (by rw [List.length_replicate]; exact hb')]
  rw [List.take_replicate]
  congr 1
  omega

theorem slot_padZeroLeft_row {rows : List Vec} {numT step j : ℕ}
    (hlen : ∀ r ∈ rows, r.length = numT) (hk : rows.length ≤ step)
    (h1 : step - rows.length ≤ j) (h2 : j < step) :
    slot numT j (padZeroLeft (numT * step) rows.flatten) =
      rows.getD (j - (step - rows.length)) [] := by
  have hfl : rows.flatten.length = numT * rows.length :=
    flatten_length_of_forall hlen
  have hpad : numT * step - rows.flatten.length = numT * (step - rows.length) := by
    rw [hfl, Nat.mul_sub]
  have hsplit : numT * j =
      (List.replicate (numT * (step - rows.length)) (0 : ℚ)).length +
        numT * (j - (step - rows.length)) := by
    rw [List.length_replicate, ← Nat.mul_add]
    congr 1
    omega
  rw [slot, padZeroLeft, hpad, hsplit, List.drop_append]
  exact flatten_slot hlen (by omega)

theorem getD_map_range {α : Type _} {f : ℕ → α} {k i : ℕ} (hi : i < k) (d : α) :
    ((List.range k).map f).getD i d = f i := by
  rw [List.getD_eq_getElem?_getD, List.getElem?_map, List.getElem?_range hi]
  rfl

theorem getD_map {α β : Type _} {f : α → β} {l : List α} {i : ℕ}
    (hi : i < l.length) (d : β) (e : α) :
    (l.map f).getD i d = f (l.getD i e) := by
  rw [List.getD_eq_getElem?_getD, List.getElem?_map,
    List.getElem?_eq_getElem hi]
  rw [List.getD_eq_getElem?_getD, List.getElem?_eq_getElem hi]
  rfl

theorem getD_mem {α : Type _} {l : List α} {i : ℕ} (hi : i < l.length) (d : α) :
    l.getD i d ∈ l := by
  rw [List.getD_eq_getElem?_getD, List.getElem?_eq_getElem hi]
  exact List.getElem_mem hi

theorem trainRows_length (numT k : ℕ) (labels : List ℕ) :
    (trainRows numT k labels).length = k := by
  simp [trainRows]

theorem trainRows_row_length {numT k : ℕ} {labels : List ℕ} :
    ∀ r ∈ trainRows numT k labels, r.length = numT := by
  intro r hr
  rcases List.mem_map.mp hr with ⟨i, _, rfl⟩
  cases h : labels[i]? with
  | none => simp [h]
  | some lab => simp [h, oneHot_length]

theorem trainRows_getD {numT k : ℕ} {labels : List ℕ} {i : ℕ}
    (hi : i < k) (hl : i < labels.length) :
    (trainRows numT k labels).getD i [] = oneHot numT (labels.getD i 0) := by
  rw [trainRows, getD_map_range hi]
  rw [List.getElem?_eq_getElem hl]
  rw [List.getD_eq_getElem?_getD, List.getElem?_eq_getElem hl]
  rfl

theorem treatOneHotBlock_slots {numT step : ℕ} {mode : Mode} {labels : List ℕ}
    {t : List Vec} (hT : 1 ≤ numT) (hk : t.length ≤ step)
    (htrain : mode = .train →
      (lastN step labels).length = t.length ∧
        ∀ lab ∈ lastN step labels, lab < numT)
    (heval : mode = .eval → ∀ l ∈ t, l.length = numT) :
    (∀ j, j < step - t.length →
       slot numT j (treatOneHotBlock numT step mode labels t) =
         List.replicate numT 0)
    ∧ (∀ j, step - t.length ≤ j → j < step →
       (slot numT j (treatOneHotBlock numT step mode labels t)).sum = 1) := by
  cases mode with
  | train =>
    obtain ⟨hlen, hbnd⟩ := htrain rfl
    have hrlen : (trainRows numT t.length (lastN step labels)).length = t.length :=
      trainRows_length _ _ _
    have hrows : ∀ r ∈ trainRows numT t.length (lastN step labels), r.length = numT :=
      trainRows_row_length
    constructor
    · intro j hj
      rw [treatOneHotBlock]
      exact slot_padZeroLeft_pad hrows (by rw [hrlen]; exact hj)
    · intro j hj1 hj2
      rw [treatOneHotBlock]
      rw [slot_padZeroLeft_row hrows (by rw [hrlen]; exact hk)
        (by rw [hrlen]; exact hj1) hj2]
      rw [hrlen]
      have hi : j - (step - t.length) < t.length := by omega
      rw [trainRows_getD hi (by rw [hlen]; exact hi)]
      exact oneHot_sum (hbnd _ (getD_mem (by rw [hlen]; exact hi) 0))
  | eval =>
    have hev := heval rfl
    have hrlen : (t.map (fun l => oneHot numT (argmaxIdx l))).length = t.length := by
      simp
    have hrows : ∀ r ∈ t.map (fun l => oneHot numT (argmaxIdx l)), r.length = numT := by
      intro r hr
      rcases List.mem_map.mp hr with ⟨l, _, rfl⟩
      exact oneHot_length _ _
    constructor
    · intro j hj
      rw [treatOneHotBlock]
      exact slot_padZeroLeft_pad hrows (by rw [hrlen]; exact hj)
    · intro j hj1 hj2
      rw [treatOneHotBlock]
      rw [slot_padZeroLeft_row hrows (by rw [hrlen]; exact hk)
        (by rw [hrlen]; exact hj1) hj2]
      rw [hrlen]
      have hi : j - (step - t.length) < t.length := by omega
      rw [getD_map hi [] []]
      have hne : t.getD (j - (step - t.length)) [] ≠ [] := by
        intro hnil
        have := hev _ (getD_mem hi [])
        rw [hnil] at this
        simp at this
        omega
      have harg : argmaxIdx (t.getD (j - (step - t.length)) []) < numT := by
        have h1 := argmaxIdx_lt_length hne
        have h2 := hev _ (getD_mem hi [])
        omega
      exact oneHot_sum harg

/-- C3: Window assembler law — for every latent sequence of length `L ≥ 1`
whose vectors all have width `latent`, the assembled `windowBlock` has width
exactly `latent * step`; when `L < step` its first `latent * (step − L)`
entries are exactly zero followed by the concatenation of the `L` latent
vectors in order; when `L ≥ step` it is exactly the concatenation of the last
`step` latent vectors, dropping only the earliest ones. -/
theorem C3_window_assembler_law (latent step : ℕ) (zs : List Vec)
    (hlen : ∀ v ∈ zs, v.length = latent) (hne : 1 ≤ zs.length) :
    (windowBlock latent step zs).length = latent * step
    ∧ (zs.length < step →
        windowBlock latent step zs =
          List.replicate (latent * (step - zs.length)) 0 ++ zs.flatten)
    ∧ (step ≤ zs.length →
        windowBlock latent step zs = (zs.drop (zs.length - step)).flatten) := by
  have hlast : ∀ v ∈ lastN step zs, v.length = latent :=
    fun v hv => hlen v (mem_of_mem_lastN hv)
  have hfl : (lastN step zs).flatten.length = latent * (lastN step zs).length :=
    flatten_length_of_forall hlast
  have hminlen : (lastN step zs).length = min step zs.length := lastN_length _ _
  refine ⟨?_, ?_, ?_⟩
  · rw [windowBlock, padZeroLeft, List.length_append, List.length_replicate,
      hfl, hminlen]
    have : latent * min step zs.length ≤ latent * step :=
      Nat.mul_le_mul_left _ (min_le_left _ _)
    omega
  · intro h
    have heq : lastN step zs = zs := lastN_eq_self (le_of_lt h)
    rw [windowBlock, padZeroLeft, heq]
    have : latent * step - zs.flatten.length = latent * (step - zs.length) := by
      rw [flatten_length_of_forall hlen, Nat.mul_sub]
    rw [this]
  · intro h
    rw [windowBlock, padZeroLeft]
    have h1 : (lastN step zs).length = step := by omega
    have h2 : (lastN step zs).flatten.length = latent * step := by rw [hfl, h1]
    rw [h2, Nat.sub_self]
    simp [lastN]

theorem C3_witness :
    ((∀ v ∈ [[(1 : ℚ)]], v.length = 1) ∧ 1 ≤ ([[(1 : ℚ)]] : List Vec).length) ∧
    ((windowBlock 1 2 [[(1 : ℚ)]]).length = 1 * 2
      ∧ (([[(1 : ℚ)]] : List Vec).length < 2 →
          windowBlock 1 2 [[(1 : ℚ)]] =
            List.replicate (1 * (2 - ([[(1 : ℚ)]] : List Vec).length)) 0 ++
              ([[(1 : ℚ)]] : List Vec).flatten)
      ∧ (2 ≤ ([[(1 : ℚ)]] : List Vec).length →
          windowBlock 1 2 [[(1 : ℚ)]] =
            (([[(1 : ℚ)]] : List Vec).drop
              (([[(1 : ℚ)]] : List Vec).length - 2)).flatten)) :=
  ⟨⟨by decide, by decide⟩,
    C3_window_assembler_law 1 2 [[(1 : ℚ)]] (by decide) (by decide)⟩

/-- C4: Treatment one-hot law — for batches processed by Variant B
(`CEQNetwork_1`) and Variant C (`CEQNetwork_2`), in training mode (labels in
`[0, num_treatment)`, aligned with the state sequence) and in evaluation mode
(predicted arg-max classes), every non-padding `num_treatment`-wide slot of
the assembled treatment block sums to exactly 1, and every left-padding slot
is entirely zero. -/
theorem C4_treatment_onehot_law (net1 : CEQNetwork_1) (net2 : CEQNetwork_2)
    (mode : Mode) (d : Data)
    (hT1 : 1 ≤ net1.num_treatment)
    (hwf1 : net1.logits_t.l2.outWF net1.num_treatment)
    (hlab1 : ∀ lab ∈ d.t, lab < net1.num_treatment)
    (hT2 : 1 ≤ net2.num_treatment)
    (hwf2 : net2.logits_t.l2.outWF net2.num_treatment)
    (hlab2 : ∀ lab ∈ d.t, lab < net2.num_treatment)
    (halign : d.t.length = d.state.length) :
    ((∀ j, j < net1.step - (net1.tlogits d).length →
        slot net1.num_treatment j (net1.treatBlock mode d) =
          List.replicate net1.num_treatment 0)
      ∧ (∀ j, net1.step - (net1.tlogits d).length ≤ j → j < net1.step →
        (slot net1.num_treatment j (net1.treatBlock mode d)).sum = 1))
    ∧ ((∀ j, j < net2.step - (net2.tlogits d).length →
        slot net2.num_treatment j (net2.treatBlock mode d) =
          List.replicate net2.num_treatment 0)
      ∧ (∀ j, net2.step - (net2.tlogits d).length ≤ j → j < net2.step →
        (slot net2.num_treatment j (net2.treatBlock mode d)).sum = 1)) := by
  constructor
  · have hk : (net1.tlogits d).length ≤ net1.step := by
      rw [CEQNetwork_1.tlogits, List.length_map, lastN_length]
      exact min_le_left _ _
    exact treatOneHotBlock_slots hT1 hk
      (fun _ => ⟨by
          rw [lastN_length, CEQNetwork_1.tlogits, List.length_map, lastN_length,
            encodeSeq, List.length_map, halign],
        fun lab hl => hlab1 lab (mem_of_mem_lastN hl)⟩)
      (fun _ l hl => by
        rcases List.mem_map.mp hl with ⟨w, _, rfl⟩
        exact headApp_length net1.logits_t _ hwf1)
  · have hk : (net2.tlogits d).length ≤ net2.step := by
      rw [CEQNetwork_2.tlogits, List.length_map, lastN_length]
      exact min_le_left _ _
    exact treatOneHotBlock_slots hT2 hk
      (fun _ => ⟨by
          rw [lastN_length, CEQNetwork_2.tlogits, List.length_map, lastN_length,
            encodeSeq, List.length_map, halign],
        fun lab hl => hlab2 lab (mem_of_mem_lastN hl)⟩)
      (fun _ l hl => by
        rcases List.mem_map.mp hl with ⟨w, _, rfl⟩
        exact headApp_length net2.logits_t _ hwf2)

theorem C4_witness :
    ((1 ≤ netB.num_treatment) ∧ netB.logits_t.l2.outWF netB.num_treatment
      ∧ (∀ lab ∈ dataEx.t, lab < netB.num_treatment)
      ∧ (1 ≤ netC.num_treatment) ∧ netC.logits_t.l2.outWF netC.num_treatment
      ∧ (∀ lab ∈ dataEx.t, lab < netC.num_treatment)
      ∧ dataEx.t.length = dataEx.state.length) ∧
    (((∀ j, j < netB.step - (netB.tlogits dataEx).length →
        slot netB.num_treatment j (netB.treatBlock .train dataEx) =
          List.replicate netB.num_treatment 0)
      ∧ (∀ j, netB.step - (netB.tlogits dataEx).length ≤ j → j < netB.step →
        (slot netB.num_treatment j (netB.treatBlock .train dataEx)).sum = 1))
    ∧ ((∀ j, j < netC.step - (netC.tlogits dataEx).length →
        slot netC.num_treatment j (netC.treatBlock .train dataEx) =
          List.replicate netC.num_treatment 0)
      ∧ (∀ j, netC.step - (netC.tlogits dataEx).length ≤ j → j < netC.step →
        (slot netC.num_treatment j (netC.treatBlock .train dataEx)).sum = 1))) :=
  ⟨⟨by decide, ⟨rfl, rfl⟩, by decide, by decide, ⟨rfl, rfl⟩, by decide, by decide⟩,
    C4_treatment_onehot_law netB netC .train dataEx (by decide) ⟨rfl, rfl⟩
      (by decide) (by decide) ⟨rfl, rfl⟩ (by decide) (by decide)⟩

/-- C1: Variant A override law — in training mode, whenever the latest
ground-truth treatment label equals 1 the returned action values are exactly
the one-hot expansion of `prev_action` of width `action_size`, for every
choice of head weights; in evaluation mode the override fires exactly when
the Treatment Head's predicted class for the latest timestep equals 1; in all
other cases the action values are the value head's output on the window block
alone.  With `action_size = 2`, `prev_action = 0` and latest ground-truth
treatment 1 in training mode, the action values are `[1, 0]` exactly. -/
theorem C1_variantA_override_law (net : SimpleQNetwork) (d : Data)
    (hwf : net.fc.l2.outWF net.action_size)
    (hst : d.state ≠ []) (hstep : 1 ≤ net.step) :
    (d.t ≠ [] →
      (net.forwardCore .train d).y =
        if d.t.getLastD 0 = 1 then oneHot net.action_size d.prev_action
        else net.yfc d)
    ∧ ((net.forwardCore .eval d).y =
        if argmaxIdx ((net.tlogits d).getLastD []) = 1
        then oneHot net.action_size d.prev_action
        else net.yfc d)
    ∧ (d.t ≠ [] → net.action_size = 2 → d.prev_action = 0 →
        d.t.getLastD 0 = 1 → (net.forwardCore .train d).y = [1, 0]) := by
  have hy : (net.yfc d).length = net.action_size := headApp_length net.fc _ hwf
  have htr : (net.forwardCore .train d).y =
      if d.t.getLastD 0 = 1 then oneHot net.action_size d.prev_action
      else net.yfc d := by
    show (if d.t.getLastD 0 = 1
        then oneHot (net.yfc d).length d.prev_action
        else net.yfc d) = _
    rw [hy]
  refine ⟨fun _ => htr, ?_, ?_⟩
  · show (if argmaxIdx ((net.tlogits d).getLastD []) = 1
        then oneHot (net.yfc d).length d.prev_action
        else net.yfc d) = _
    rw [hy]
  · intro _ h2 h0 h1t
    rw [htr, if_pos h1t, h2, h0]
    decide

theorem C1_witness :
    (netA.fc.l2.outWF netA.action_size ∧ dataEx.state ≠ [] ∧ 1 ≤ netA.step) ∧
    ((dataEx.t ≠ [] →
      (netA.forwardCore .train dataEx).y =
        if dataEx.t.getLastD 0 = 1 then oneHot netA.action_size dataEx.prev_action
        else netA.yfc dataEx)
    ∧ ((netA.forwardCore .eval dataEx).y =
        if argmaxIdx ((netA.tlogits dataEx).getLastD []) = 1
        then oneHot netA.action_size dataEx.prev_action
        else netA.yfc dataEx)
    ∧ (dataEx.t ≠ [] → netA.action_size = 2 → dataEx.prev_action = 0 →
        dataEx.t.getLastD 0 = 1 → (netA.forwardCore .train dataEx).y = [1, 0])) :=
  ⟨⟨⟨rfl, rfl⟩, by decide, by decide⟩,
    C1_variantA_override_law netA dataEx ⟨rfl, rfl⟩ (by decide) (by decide)⟩

/-- C2: Variant C combination law — the returned action values equal
`t·head₁ + (1−t)·head₀` entrywise, where both heads are applied to the same
concatenated window+treatment vector and `t` is the latest-timestep treatment
indicator (the ground-truth label in training mode, the arg-max prediction
cast to a rational weight in evaluation mode); for `t = 0` the output equals
`fc_t0`'s raw output and for `t = 1` it equals `fc_t1`'s raw output. -/
theorem C2_variantC_combination_law (net : CEQNetwork_2) (mode : Mode) (d : Data)
    (hwf0 : net.fc_t0.l2.outWF net.action_size)
    (hwf1 : net.fc_t1.l2.outWF net.action_size)
    (hst : d.state ≠ []) (hstep : 1 ≤ net.step)
    (htr : mode = .train → d.t ≠ []) :
    ((net.forwardCore mode d).y =
      List.zipWith
        (fun a b => net.tIndicator mode d * a + (1 - net.tIndicator mode d) * b)
        (net.fc_t1.app (net.joint mode d)) (net.fc_t0.app (net.joint mode d)))
    ∧ (net.tIndicator mode d = 0 →
        (net.forwardCore mode d).y = net.fc_t0.app (net.joint mode d))
    ∧ (net.tIndicator mode d = 1 →
        (net.forwardCore mode d).y = net.fc_t1.app (net.joint mode d))
    ∧ (mode = .train → net.tIndicator mode d = (d.t.getLastD 0 : ℚ))
    ∧ (mode = .eval →
        net.tIndicator mode d = (argmaxIdx ((net.tlogits d).getLastD []) : ℚ)) := by
  have h0 : (net.fc_t0.app (net.joint mode d)).length = net.action_size :=
    headApp_length net.fc_t0 _ hwf0
  have h1 : (net.fc_t1.app (net.joint mode d)).length = net.action_size :=
    headApp_length net.fc_t1 _ hwf1
  have hcore : (net.forwardCore mode d).y =
      List.zipWith
        (fun a b => net.tIndicator mode d * a + (1 - net.tIndicator mode d) * b)
        (net.fc_t1.app (net.joint mode d)) (net.fc_t0.app (net.joint mode d)) := rfl
  refine ⟨hcore, ?_, ?_, fun h => by subst h; rfl, fun h => by subst h; rfl⟩
  · intro hz
    rw [hcore, hz]
    exact zipWith_comb_right (by rw [h1, h0])
  · intro ho
    rw [hcore, ho]
    exact zipWith_comb_left (by rw [h1, h0])

theorem C2_witness :
    (netC.fc_t0.l2.outWF netC.action_size ∧ netC.fc_t1.l2.outWF netC.action_size
      ∧ dataEx.state ≠ [] ∧ 1 ≤ netC.step ∧ (Mode.train = Mode.train → dataEx.t ≠ [])) ∧
    (((netC.forwardCore .train dataEx).y =
      List.zipWith
        (fun a b => netC.tIndicator .train dataEx * a + (1 - netC.tIndicator .train dataEx) * b)
        (netC.fc_t1.app (netC.joint .train dataEx)) (netC.fc_t0.app (netC.joint .train dataEx)))
    ∧ (netC.tIndicator .train dataEx = 0 →
        (netC.forwardCore .train dataEx).y = netC.fc_t0.app (netC.joint .train dataEx))
    ∧ (netC.tIndicator .train dataEx = 1 →
        (netC.forwardCore .train dataEx).y = netC.fc_t1.app (netC.joint .train dataEx))
    ∧ (Mode.train = Mode.train → netC.tIndicator .train dataEx = (dataEx.t.getLastD 0 : ℚ))
    ∧ (Mode.train = Mode.eval →
        netC.tIndicator .train dataEx = (argmaxIdx ((netC.tlogits dataEx).getLastD []) : ℚ))) :=
  ⟨⟨⟨rfl, rfl⟩, ⟨rfl, rfl⟩, by decide, by decide, fun _ => by decide⟩,
    C2_variantC_combination_law netC .train dataEx ⟨rfl, rfl⟩ ⟨rfl, rfl⟩
      (by decide) (by decide) (fun _ => by decide)⟩

/-- C5: Evaluation-mode arg-max selection — in evaluation mode the treatment
indicator used by Variant A (the class compared against 1 in the override)
and by Variant C (the weight `t`) equals the arg-max of the Treatment Head's
logits at the latest timestep, and the arg-max selects, among tied maximal
scores, the lowest class index, deterministically. -/
theorem C5_eval_argmax_selection (netA' : SimpleQNetwork) (netC' : CEQNetwork_2)
    (d : Data) (l : List ℚ) (hl : l ≠ []) :
    ((netA'.forwardCore .eval d).y =
      if argmaxIdx ((netA'.forwardCore .eval d).t) = 1
      then oneHot (netA'.yfc d).length d.prev_action
      else netA'.yfc d)
    ∧ (netC'.tIndicator .eval d = (argmaxIdx ((netC'.forwardCore .eval d).t) : ℚ))
    ∧ argmaxIdx l < l.length
    ∧ (∀ j, j < l.length → l.getD j 0 ≤ l.getD (argmaxIdx l) 0)
    ∧ (∀ j, j < argmaxIdx l → l.getD j 0 < l.getD (argmaxIdx l) 0) :=
  ⟨rfl, rfl, argmaxIdx_lt_length hl,
    fun _ hj => getD_le_getD_argmaxIdx hj,
    fun _ hj => getD_lt_of_lt_argmaxIdx hj⟩

theorem C5_witness :
    (([(1 : ℚ), 1] : List ℚ) ≠ []) ∧
    (((netA.forwardCore .eval dataEx).y =
      if argmaxIdx ((netA.forwardCore .eval dataEx).t) = 1
      then oneHot (netA.yfc dataEx).length dataEx.prev_action
      else netA.yfc dataEx)
    ∧ (netC.tIndicator .eval dataEx =
        (argmaxIdx ((netC.forwardCore .eval dataEx).t) : ℚ))
    ∧ argmaxIdx [(1 : ℚ), 1] < ([(1 : ℚ), 1] : List ℚ).length
    ∧ (∀ j, j < ([(1 : ℚ), 1] : List ℚ).length →
        ([(1 : ℚ), 1] : List ℚ).getD j 0 ≤
          ([(1 : ℚ), 1] : List ℚ).getD (argmaxIdx [(1 : ℚ), 1]) 0)
    ∧ (∀ j, j < argmaxIdx [(1 : ℚ), 1] →
        ([(1 : ℚ), 1] : List ℚ).getD j 0 <
          ([(1 : ℚ), 1] : List ℚ).getD (argmaxIdx [(1 : ℚ), 1]) 0)) :=
  ⟨by decide, C5_eval_argmax_selection netA netC dataEx [(1 : ℚ), 1] (by decide)⟩

/-- C6: Evaluation-mode determinism — for every variant and every fixed set
of weights, two forward computations in evaluation mode on the same input
batch yield identical output records; the computation is a pure function with
no sampling. -/
theorem C6_eval_two_run_determinism (nA : SimpleQNetwork) (n1 : CEQNetwork_1)
    (n2 : CEQNetwork_2) (d d' : Data) (h : d = d') :
    nA.forwardCore .eval d = nA.forwardCore .eval d'
    ∧ n1.forwardCore .eval d = n1.forwardCore .eval d'
    ∧ n2.forwardCore .eval d = n2.forwardCore .eval d' := by
  subst h
  exact ⟨rfl, rfl, rfl⟩

theorem C6_witness :
    (dataEx = dataEx) ∧
    (netA.forwardCore .eval dataEx = netA.forwardCore .eval dataEx
    ∧ netB.forwardCore .eval dataEx = netB.forwardCore .eval dataEx
    ∧ netC.forwardCore .eval dataEx = netC.forwardCore .eval dataEx) :=
  ⟨rfl, C6_eval_two_run_determinism netA netB netC dataEx dataEx rfl⟩

/-- C9: Evaluation-mode noninterference from `treatment_sequence` — for every
variant, in evaluation mode the outputs are identical for any two input
batches that agree on everything except the ground-truth treatment labels
`t`; only the Treatment Head's predictions feed the computation. -/
theorem C9_eval_noninterference (nA : SimpleQNetwork) (n1 : CEQNetwork_1)
    (n2 : CEQNetwork_2) (st : List Vec) (pa : ℕ) (t1 t2 : List ℕ)
    (z : Option (List Vec)) (oh : Option Vec) :
    nA.forwardCore .eval ⟨st, pa, t1, z, oh⟩ = nA.forwardCore .eval ⟨st, pa, t2, z, oh⟩
    ∧ n1.forwardCore .eval ⟨st, pa, t1, z, oh⟩ = n1.forwardCore .eval ⟨st, pa, t2, z, oh⟩
    ∧ n2.forwardCore .eval ⟨st, pa, t1, z, oh⟩ = n2.forwardCore .eval ⟨st, pa, t2, z, oh⟩
    ∧ nA.forwardE .eval ⟨st, pa, t1, z, oh⟩ = nA.forwardE .eval ⟨st, pa, t2, z, oh⟩
    ∧ n1.forwardE .eval ⟨st, pa, t1, z, oh⟩ = n1.forwardE .eval ⟨st, pa, t2, z, oh⟩
    ∧ n2.forwardE .eval ⟨st, pa, t1, z, oh⟩ = n2.forwardE .eval ⟨st, pa, t2, z, oh⟩ :=
  ⟨rfl, rfl, rfl, rfl, rfl, rfl⟩

/-- C7: Fail-fast shape checking — whenever some state vector of the batch
disagrees with the configured `state_size`, the checked forward computation
of every variant fails with `shapeMismatch` (the error PyTorch raises inside
the first encoder layer, before any action-value head output is produced). -/
theorem C7_shape_mismatch_fail_fast (nA : SimpleQNetwork) (n1 : CEQNetwork_1)
    (n2 : CEQNetwork_2) (mode : Mode) (d : Data)
    (hA : ∃ v ∈ d.state, v.length ≠ nA.state_size)
    (h1 : ∃ v ∈ d.state, v.length ≠ n1.state_size)
    (h2 : ∃ v ∈ d.state, v.length ≠ n2.state_size) :
    nA.forwardE mode d = .error .shapeMismatch
    ∧ n1.forwardE mode d = .error .shapeMismatch
    ∧ n2.forwardE mode d = .error .shapeMismatch := by
  refine ⟨?_, ?_, ?_⟩
  · have hall : ¬ (d.state.all (fun v => v.length = nA.state_size) = true) := by
      rw [List.all_eq_true]
      push_neg
      rcases hA with ⟨v, hv, hne⟩
      exact ⟨v, hv, by simpa using hne⟩
    rw [SimpleQNetwork.forwardE.eq_def, if_neg hall]
  · have hall : ¬ (d.state.all (fun v => v.length = n1.state_size) = true) := by
      rw [List.all_eq_true]
      push_neg
      rcases h1 with ⟨v, hv, hne⟩
      exact ⟨v, hv, by simpa using hne⟩
    rw [CEQNetwork_1.forwardE.eq_def, if_neg hall]
  · have hall : ¬ (d.state.all (fun v => v.length = n2.state_size) = true) := by
      rw [List.all_eq_true]
      push_neg
      rcases h2 with ⟨v, hv, hne⟩
      exact ⟨v, hv, by simpa using hne⟩
    rw [CEQNetwork_2.forwardE.eq_def, if_neg hall]

theorem C7_witness :
    ((∃ v ∈ ({ state := [[1, 1]], prev_action := 0, t := [1] } : Data).state,
        v.length ≠ netA.state_size)
      ∧ (∃ v ∈ ({ state := [[1, 1]], prev_action := 0, t := [1] } : Data).state,
        v.length ≠ netB.state_size)
      ∧ (∃ v ∈ ({ state := [[1, 1]], prev_action := 0, t := [1] } : Data).state,
        v.length ≠ netC.state_size)) ∧
    (netA.forwardE .train { state := [[1, 1]], prev_action := 0, t := [1] } =
        .error .shapeMismatch
      ∧ netB.forwardE .train { state := [[1, 1]], prev_action := 0, t := [1] } =
        .error .shapeMismatch
      ∧ netC.forwardE .train { state := [[1, 1]], prev_action := 0, t := [1] } =
        .error .shapeMismatch) :=
  ⟨⟨by decide, by decide, by decide⟩,
    C7_shape_mismatch_fail_fast netA netB netC .train
      { state := [[1, 1]], prev_action := 0, t := [1] }
      (by decide) (by decide) (by decide)⟩

/-- C10: Implicit precondition on `prev_action` in Variant A — the one-hot
buffer has the width of the value-head output (`action_size`), so when
`prev_action < action_size` the checked forward succeeds and the buffer holds
exactly one 1, at index `prev_action`; when `prev_action ≥ action_size` the
scatter bound fails and the forward call errors before producing outputs. -/
theorem C10_prev_action_precondition (net : SimpleQNetwork) (mode : Mode)
    (d : Data) (hwf : net.fc.l2.outWF net.action_size)
    (hdim : ∀ v ∈ d.state, v.length = net.state_size)
    (hst : d.state ≠ []) (ht : mode = .train → d.t ≠ []) :
    (d.prev_action < net.action_size →
      net.forwardE mode d = .ok (net.forwardCore mode d)
      ∧ (oneHot (net.yfc d).length d.prev_action).getD d.prev_action 0 = 1
      ∧ (∀ j, j < net.action_size → j ≠ d.prev_action →
          (oneHot (net.yfc d).length d.prev_action).getD j 0 = 0))
    ∧ (net.action_size ≤ d.prev_action →
        net.forwardE mode d = .error .indexOutOfBounds) := by
  have hy : (net.yfc d).length = net.action_size := headApp_length net.fc _ hwf
  have hall : d.state.all (fun v => v.length = net.state_size) = true := by
    rw [List.all_eq_true]
    intro v hv
    simpa using hdim v hv
  constructor
  · intro hpa
    refine ⟨?_, ?_, ?_⟩
    · rw [SimpleQNetwork.forwardE.eq_def, if_pos hall, if_neg hst,
        if_pos (by rw [hy]; exact hpa)]
      cases mode with
      | train => rw [if_neg (ht rfl)]
      | eval => rfl
    · rw [hy, oneHot_getD hpa, if_pos rfl]
    · intro j hj hne
      rw [hy, oneHot_getD hj, if_neg hne]
  · intro hge
    rw [SimpleQNetwork.forwardE.eq_def, if_pos hall, if_neg hst,
      if_neg (by rw [hy]; omega)]

theorem C10_witness :
    (netA.fc.l2.outWF netA.action_size
      ∧ (∀ v ∈ dataEx.state, v.length = netA.state_size)
      ∧ dataEx.state ≠ [] ∧ (Mode.train = Mode.train → dataEx.t ≠ [])) ∧
    ((dataEx.prev_action < netA.action_size →
      netA.forwardE .train dataEx = .ok (netA.forwardCore .train dataEx)
      ∧ (oneHot (netA.yfc dataEx).length dataEx.prev_action).getD
          dataEx.prev_action 0 = 1
      ∧ (∀ j, j < netA.action_size → j ≠ dataEx.prev_action →
          (oneHot (netA.yfc dataEx).length dataEx.prev_action).getD j 0 = 0))
    ∧ (netA.action_size ≤ dataEx.prev_action →
        netA.forwardE .train dataEx = .error .indexOutOfBounds)) :=
  ⟨⟨⟨rfl, rfl⟩, by decide, by decide, fun _ => by decide⟩,
    C10_prev_action_precondition netA .train dataEx ⟨rfl, rfl⟩ (by decide)
      (by decide) (fun _ => by decide)⟩

/-- C8 (amended): a forward call mutates no model parameters and keeps no
state across calls, and it leaves the `state`, `prev_action` and `t` fields
of the caller-supplied batch record unchanged; however it writes the freshly
computed latent sequence into the batch's `z` field, and Variant A
additionally writes the one-hot `prev_action` buffer into
`onehot_prev_action`, overwriting any previous values of those fields. -/
theorem C8_forward_frame (nA : SimpleQNetwork) (n1 : CEQNetwork_1)
    (n2 : CEQNetwork_2) (mode : Mode) (d : Data) :
    ((nA.forwardMut mode d).2.state = d.state
      ∧ (nA.forwardMut mode d).2.prev_action = d.prev_action
      ∧ (nA.forwardMut mode d).2.t = d.t
      ∧ (nA.forwardMut mode d).2.z = some (encodeSeq nA.encoder d.state)
      ∧ (nA.forwardMut mode d).2.onehot_prev_action =
          some (oneHot (nA.yfc d).length d.prev_action)
      ∧ (nA.forwardMut mode d).1 = nA.forwardCore mode d)
    ∧ ((n1.forwardMut mode d).2.state = d.state
      ∧ (n1.forwardMut mode d).2.prev_action = d.prev_action
      ∧ (n1.forwardMut mode d).2.t = d.t
      ∧ (n1.forwardMut mode d).2.z = some (encodeSeq n1.encoder d.state)
      ∧ (n1.forwardMut mode d).2.onehot_prev_action = d.onehot_prev_action
      ∧ (n1.forwardMut mode d).1 = n1.forwardCore mode d)
    ∧ ((n2.forwardMut mode d).2.state = d.state
      ∧ (n2.forwardMut mode d).2.prev_action = d.prev_action
      ∧ (n2.forwardMut mode d).2.t = d.t
      ∧ (n2.forwardMut mode d).2.z = some (encodeSeq n2.encoder d.state)
      ∧ (n2.forwardMut mode d).2.onehot_prev_action = d.onehot_prev_action
      ∧ (n2.forwardMut mode d).1 = n2.forwardCore mode d) :=
  ⟨⟨rfl, rfl, rfl, rfl, rfl, rfl⟩, ⟨rfl, rfl, rfl, rfl, rfl, rfl⟩,
    ⟨rfl, rfl, rfl, rfl, rfl, rfl⟩⟩

theorem C8_counterexample : (netA.forwardMut .train dataEx).2 ≠ dataEx := by
  decide
